import Mathlib

/-!
# CommitMux — verification of the indexing and query engine

Shallow embedding of the CommitMux core (crates/store/src/queries.rs,
crates/ingest/src/walker.rs, crates/embed/src/lib.rs) and proofs about it.

Modelling conventions:
* SQLite tables are lists of row structures; the implicit SQLite `rowid` of the
  `commits` table is modelled explicitly together with a `next_rowid` counter
  (`INSERT` assigns a fresh rowid; `INSERT OR REPLACE` deletes the conflicting
  row and inserts under a fresh rowid, which is how SQLite behaves when the
  rowid column is not listed in the INSERT).
* Rust `i64` columns are `Int`, text is `String`, `Option` is `Option`.
* The zstd compression used by `upsert_patch`/`get_patch` and the UTF-8-lossy
  decoding of `String::from_utf8_lossy` are external libraries; they are
  abstracted as a `Codec` whose contract (decode ∘ encode = id on the stored
  text) is a hypothesis where a theorem needs it.
* FTS5 external-content semantics: a `'delete'` command removes the index entry
  only when it is issued with the column values currently associated with the
  rowid (this is the documented requirement of external-content tables); an
  `INSERT` adds an entry.  `MATCH` on a single token is modelled as substring
  containment in one of the indexed columns.
-/

-- ── String helpers (Rust std semantics) ────────────────────────────────────

/-- Rust `s.chars().take(n).collect::<String>()`. -/
def charsTake (n : Nat) (s : String) : String :=
  String.mk (s.data.take n)

/-- Rust `s.len()`: the UTF-8 byte length of a string. -/
def utf8Len (s : String) : Nat :=
  (s.data.map Char.utf8Size).sum

/-- Greedy prefix of a char list whose total UTF-8 size stays within `budget`
bytes.  This is the char list of `s[..s.floor_char_boundary(budget)]`. -/
def takeBytesAux : List Char → Nat → List Char
  | [], _ => []
  | c :: cs, budget =>
    if c.utf8Size ≤ budget then c :: takeBytesAux cs (budget - c.utf8Size) else []

/-- Rust `&s[..s.floor_char_boundary(n)]`: the longest prefix of whole
characters whose UTF-8 encoding is at most `n` bytes. -/
def bytePrefix (n : Nat) (s : String) : String :=
  String.mk (takeBytesAux s.data n)

/-- Rust `s.is_char_boundary(n)` for `n` inside the string: `n` is the byte
length of some prefix of whole characters. -/
def charBoundary : List Char → Nat → Bool
  | _, 0 => true
  | [], _ + 1 => false
  | c :: cs, n + 1 =>
    if c.utf8Size ≤ n + 1 then charBoundary cs (n + 1 - c.utf8Size) else false

/-- Rust `s.trim()` (whitespace stripped from both ends). -/
def trimChars (s : String) : String :=
  String.mk (((s.data.dropWhile Char.isWhitespace).reverse.dropWhile
    Char.isWhitespace).reverse)

/-- `listHasPfx needle hay`: `needle` is a prefix of `hay`. -/
def listHasPfx : List Char → List Char → Bool
  | [], _ => true
  | _ :: _, [] => false
  | a :: as, b :: bs => a == b && listHasPfx as bs

/-- `listHasSub needle hay`: `needle` occurs contiguously inside `hay`. -/
def listHasSub (needle : List Char) : List Char → Bool
  | [] => needle.isEmpty
  | b :: bs => listHasPfx needle (b :: bs) || listHasSub needle bs

/-- Rust `char::to_ascii_lowercase`. -/
def asciiLower (c : Char) : Char :=
  if 'A' ≤ c ∧ c ≤ 'Z' then Char.ofNat (c.toNat + 32) else c

/-- Rust `str::eq_ignore_ascii_case`. -/
def eqIgnoreAsciiCase (a b : String) : Bool :=
  a.data.map asciiLower == b.data.map asciiLower

/-- Zero padding of a decimal representation to a given width. -/
def zeroPad (width : Nat) (s : String) : String :=
  if s.length < width then String.mk (List.replicate (width - s.length) '0') ++ s
  else s

/-- Rust `format!("{:0w}", i)` for an `i64`: the sign, if any, counts towards
the width and the zero padding sits between sign and digits. -/
def fmtIntWidth (width : Nat) (i : Int) : String :=
  if i < 0 then "-" ++ zeroPad (width - 1) (Nat.repr i.natAbs)
  else zeroPad width (Nat.repr i.natAbs)

-- ── format_iso_date (queries.rs lines 21-47) ───────────────────────────────

/-- `format_iso_date` from `crates/store/src/queries.rs`: manual proleptic
Gregorian formatting of an epoch timestamp as `YYYY-MM-DDTHH:MM:SSZ`.
Negative timestamps are clamped to 0 (`let secs = if ts < 0 { 0u64 } else
{ ts as u64 }`).  Rust `i64` division truncates toward zero, as does `Int`
division here; the `u64` divisions are `Nat` divisions. -/
def format_iso_date (ts : Int) : String :=
  let secs : Nat := if ts < 0 then 0 else ts.toNat
  let days_since_epoch : Nat := secs / 86400
  let time_of_day : Nat := secs % 86400
  let hours : Nat := time_of_day / 3600
  let minutes : Nat := (time_of_day % 3600) / 60
  let seconds : Nat := time_of_day % 60
  let z : Int := (days_since_epoch : Int) + 719468
  let era : Int := (if 0 ≤ z then z else z - 146096) / 146097
  let doe : Int := z - era * 146097
  let yoe : Int := (doe - doe / 1460 + doe / 36524 - doe / 146096) / 365
  let y : Int := yoe + era * 400
  let doy : Int := doe - (365 * yoe + yoe / 4 - yoe / 100)
  let mp : Int := (5 * doy + 2) / 153
  let d : Int := doy - (153 * mp + 2) / 5 + 1
  let m : Int := if mp < 10 then mp + 3 else mp - 9
  let y2 : Int := if m ≤ 2 then y + 1 else y
  fmtIntWidth 4 y2 ++ "-" ++ fmtIntWidth 2 m ++ "-" ++ fmtIntWidth 2 d ++ "T" ++
    fmtIntWidth 2 (hours : Int) ++ ":" ++ fmtIntWidth 2 (minutes : Int) ++ ":" ++
    fmtIntWidth 2 (seconds : Int) ++ "Z"

-- ── Data model (schema.rs, commitmux_types) ────────────────────────────────

/-- Input record `commitmux_types::Commit`. -/
structure CommitRec where
  repo_id : Int
  sha : String
  author_name : String
  author_email : String
  committer_name : String
  committer_email : String
  author_time : Int
  commit_time : Int
  subject : String
  body : Option String
  parent_count : Nat
deriving DecidableEq

/-- A row of the `commits` table, with its SQLite rowid made explicit.
`subject` and `patch_preview` are always written non-NULL by the code
(`upsert_commit` inserts `patch_preview = ''`), so they are plain `String`. -/
structure CommitRow where
  rowid : Nat
  repo_id : Int
  sha : String
  author_name : String
  author_email : String
  committer_name : String
  committer_email : String
  author_time : Int
  commit_time : Int
  subject : String
  body : Option String
  parent_count : Nat
  patch_preview : String
deriving DecidableEq

/-- A row of the external-content FTS5 table `commits_fts`. -/
structure FtsRow where
  rowid : Nat
  subject : String
  body : Option String
  patch_preview : String
deriving DecidableEq

/-- A row of `repos` (the columns the modelled operations read). -/
structure RepoRow where
  repo_id : Int
  name : String
  author_filter : Option String
deriving DecidableEq

/-- A row of `commit_patches`.  The blob holds the zstd-compressed bytes,
abstracted as an opaque byte list produced by the codec. -/
structure PatchRow where
  repo_id : Int
  sha : String
  patch_blob : List Nat
deriving DecidableEq

/-- A row of `commit_files` (status persisted as its single-character code). -/
structure FileRow where
  repo_id : Int
  sha : String
  path : String
  status : String
  old_path : Option String
deriving DecidableEq

/-- A row of `ingest_state`. -/
structure IngestRow where
  repo_id : Int
  last_synced_at : Int
  last_synced_sha : Option String
  last_error : Option String
deriving DecidableEq

/-- A row of `commit_embed_map`. -/
structure EmbedMapRow where
  embed_id : Nat
  repo_id : Int
  sha : String
deriving DecidableEq

/-- A row of the vec0 virtual table `commit_embeddings`; the vector is kept as
its serialized little-endian byte list (the numeric content is never
interpreted by the store). -/
structure EmbeddingRow where
  embed_id : Nat
  embedding : List Nat
  sha : String
  subject : String
  repo_name : String
  author_name : String
  author_time : Int
  patch_preview : Option String
deriving DecidableEq

/-- The persistent state: all tables of the SQLite file. -/
structure DBState where
  repos : List RepoRow
  commits : List CommitRow
  commits_fts : List FtsRow
  commit_patches : List PatchRow
  commit_files : List FileRow
  ingest_state : List IngestRow
  embed_map : List EmbedMapRow
  embeddings : List EmbeddingRow
  next_rowid : Nat
deriving DecidableEq

/-- A freshly initialised database. -/
def emptyDB : DBState :=
  { repos := [], commits := [], commits_fts := [], commit_patches := [],
    commit_files := [], ingest_state := [], embed_map := [], embeddings := [],
    next_rowid := 1 }

/-- Abstraction of the external byte-level pipeline of `upsert_patch` /
`get_patch`: `encode` is UTF-8 encoding followed by `zstd::encode_all(·, 3)`;
`decodeLossy` is `zstd::decode_all` followed by `String::from_utf8_lossy`.
Their round-trip contract is a hypothesis of the theorems that use it. -/
structure Codec where
  encode : String → List Nat
  decodeLossy : List Nat → String

-- ── Store operations (queries.rs) ──────────────────────────────────────────

/-- `SELECT rowid, ... FROM commits WHERE repo_id = ? AND sha = ?`
(`query_row ... .optional()`: the first matching row, if any). -/
def findCommitByKey (rid : Int) (sha : String) (l : List CommitRow) :
    Option CommitRow :=
  l.find? fun r => r.repo_id == rid && r.sha == sha

/-- `commit_exists` (queries.rs lines 587-595): `COUNT(*) > 0` on the key. -/
def commit_exists (rid : Int) (sha : String) (st : DBState) : Bool :=
  st.commits.any fun r => r.repo_id == rid && r.sha == sha

/-- FTS5 external-content `'delete'` command: removes the entry for `rowid`,
provided the supplied column values are the ones currently indexed for it
(external-content tables require the caller to pass the old values; a
mismatched delete corrupts the index rather than removing the entry, which
this model renders as the entry surviving). -/
def ftsDelete (rowid : Nat) (subject : String) (body : Option String)
    (pp : String) (l : List FtsRow) : List FtsRow :=
  l.filter fun f =>
    !(f.rowid == rowid && f.subject == subject && f.body == body &&
      f.patch_preview == pp)

/-- The `commits` row inserted by `upsert_commit`: the commit's fields with a
fresh rowid and `patch_preview = ''`. -/
def newCommitRow (c : CommitRec) (st : DBState) : CommitRow :=
  { rowid := st.next_rowid, repo_id := c.repo_id, sha := c.sha,
    author_name := c.author_name, author_email := c.author_email,
    committer_name := c.committer_name, committer_email := c.committer_email,
    author_time := c.author_time, commit_time := c.commit_time,
    subject := c.subject, body := c.body, parent_count := c.parent_count,
    patch_preview := "" }

/-- `upsert_commit` (queries.rs lines 124-188).
Protocol: look up the existing rowid for `(repo_id, sha)`; if present, re-read
its `subject`/`body`/`patch_preview` (queries at lines 138-152 select them by
that same rowid) and emit an FTS `'delete'` with those old values; then
`INSERT OR REPLACE` into `commits` with `patch_preview = ''` (the conflicting
row is deleted and the new row gets a fresh rowid); finally insert the new FTS
entry `(new_rowid, subject, body, '')`. -/
def upsert_commit (c : CommitRec) (st : DBState) : DBState :=
  let fts1 := match findCommitByKey c.repo_id c.sha st.commits with
    | some old => ftsDelete old.rowid old.subject old.body old.patch_preview
        st.commits_fts
    | none => st.commits_fts
  { st with
    commits :=
      (st.commits.filter fun r => !(r.repo_id == c.repo_id && r.sha == c.sha))
        ++ [newCommitRow c st],
    commits_fts := fts1 ++ [⟨st.next_rowid, c.subject, c.body, ""⟩],
    next_rowid := st.next_rowid + 1 }

/-- `upsert_commit_files` (queries.rs lines 190-220): empty input is a no-op;
otherwise delete every row with the `(repo_id, sha)` of the first file, then
insert all input rows. -/
def upsert_commit_files (files : List FileRow) (st : DBState) : DBState :=
  match files with
  | [] => st
  | first :: _ =>
    { st with commit_files :=
        (st.commit_files.filter fun r =>
          !(r.repo_id == first.repo_id && r.sha == first.sha)) ++ files }

/-- Input record `commitmux_types::CommitPatch`.  `patch_blob` holds the raw
uncompressed patch bytes; the model keeps them as the text they decode to
(every caller in the repository builds them from a UTF-8 string). -/
structure PatchRec where
  repo_id : Int
  sha : String
  patch_blob : String
  patch_preview : String
deriving DecidableEq

/-- `upsert_patch` (queries.rs lines 222-280).
Compress the blob (zstd level 3) and `INSERT OR REPLACE` into
`commit_patches`; then, if a `commits` row exists for the key, take
`preview = patch_preview.chars().take(500)`, re-read the row's old
`patch_preview` (line 249-256 selects it by the rowid just found), emit the
FTS `'delete'` with the old values, `UPDATE commits SET patch_preview`, and
insert the fresh FTS entry. -/
def upsert_patch (codec : Codec) (p : PatchRec) (st : DBState) : DBState :=
  let compressed := codec.encode p.patch_blob
  let patches1 :=
    (st.commit_patches.filter fun r =>
      !(r.repo_id == p.repo_id && r.sha == p.sha)) ++
      [⟨p.repo_id, p.sha, compressed⟩]
  let preview := charsTake 500 p.patch_preview
  match findCommitByKey p.repo_id p.sha st.commits with
  | none => { st with commit_patches := patches1 }
  | some row =>
    { st with
      commit_patches := patches1,
      commits := st.commits.map fun r =>
        if r.rowid == row.rowid then { r with patch_preview := preview } else r,
      commits_fts :=
        ftsDelete row.rowid row.subject row.body row.patch_preview
          st.commits_fts ++ [⟨row.rowid, row.subject, row.body, preview⟩] }

/-- Result record `commitmux_types::PatchResult`. -/
structure PatchResultM where
  repo : String
  sha : String
  patch_text : String
deriving DecidableEq

/-- `get_patch` (queries.rs lines 682-720): select the blob joining
`commit_patches` to `repos` on `repo_id` with `r.name = ?1 AND cp.sha = ?2`;
decompress and UTF-8-lossy decode; if `max_bytes` is set and
`patch_text.len()` (bytes) exceeds it, truncate to `max` characters
(`chars().take(max)`). -/
def get_patch (codec : Codec) (repo_name sha : String) (max_bytes : Option Nat)
    (st : DBState) : Option PatchResultM :=
  match st.commit_patches.find? (fun p =>
      (st.repos.any fun r => r.repo_id == p.repo_id && r.name == repo_name) &&
      p.sha == sha) with
  | none => none
  | some p =>
    let decompressed := codec.decodeLossy p.patch_blob
    let patch_text := match max_bytes with
      | some max =>
        if max < utf8Len decompressed then charsTake max decompressed
        else decompressed
      | none => decompressed
    some ⟨repo_name, sha, patch_text⟩

/-- The row `get_commit` (queries.rs lines 506-551) selects: commits joined to
repos on `repo_id` with `r.name = ?1 AND c.sha LIKE ?2 || '%'`, ordered by
`author_time DESC`, first row.  On ties SQLite returns some row of the group;
the model keeps the first listed row with maximal `author_time`. -/
def selectCommitRow (repo_name sha_pfx : String) (st : DBState) :
    Option CommitRow :=
  (st.commits.filter fun c =>
      (st.repos.any fun r => r.repo_id == c.repo_id && r.name == repo_name) &&
      sha_pfx.data.isPrefixOf c.sha.data).foldl
    (fun best c => match best with
      | none => some c
      | some b => if b.author_time < c.author_time then some c else some b)
    none

/-- Result record `commitmux_types::CommitFileDetail`. -/
structure CommitFileDetailM where
  path : String
  status : String
  old_path : Option String
deriving DecidableEq

/-- Result record `commitmux_types::CommitDetail`. -/
structure CommitDetailM where
  repo : String
  sha : String
  subject : String
  body : Option String
  author : String
  date : String
  changed_files : List CommitFileDetailM
deriving DecidableEq

/-- `get_commit` (queries.rs lines 506-551): select the newest matching commit,
format its `author_time` with `format_iso_date`, and attach the file list
(`ORDER BY path`). -/
def get_commit (repo_name sha_pfx : String) (st : DBState) :
    Option CommitDetailM :=
  match selectCommitRow repo_name sha_pfx st with
  | none => none
  | some c =>
    let files := ((st.commit_files.filter fun f =>
        f.repo_id == c.repo_id && f.sha == c.sha).map fun f =>
          CommitFileDetailM.mk f.path f.status f.old_path)
    some ⟨repo_name, c.sha, c.subject, c.body, c.author_name,
      format_iso_date c.author_time, files⟩

/-- `INSERT INTO commits_fts(commits_fts) VALUES('rebuild')`: reconcile the
FTS index against the content table — afterwards it mirrors `commits`. -/
def ftsRebuild (st : DBState) : DBState :=
  { st with commits_fts :=
      st.commits.map fun c => ⟨c.rowid, c.subject, c.body, c.patch_preview⟩ }

/-- The successive SQL statements of `remove_repo` (queries.rs lines 553-585)
after the repo_id lookup, in source order: delete `commit_patches`, delete
`commit_files`, delete `ingest_state`, delete `commits`, FTS rebuild, delete
the `repos` row. -/
def remove_repo_stmts (rid : Int) : List (DBState → DBState) :=
  [ fun st =>
      { st with commit_patches := st.commit_patches.filter (fun r => !(r.repo_id == rid)) },
    fun st =>
      { st with commit_files := st.commit_files.filter (fun r => !(r.repo_id == rid)) },
    fun st =>
      { st with ingest_state := st.ingest_state.filter (fun r => !(r.repo_id == rid)) },
    fun st =>
      { st with commits := st.commits.filter (fun r => !(r.repo_id == rid)) },
    ftsRebuild,
    fun st =>
      { st with repos := st.repos.filter (fun r => !(r.repo_id == rid)) } ]

/-- `remove_repo` when the SQL statement at index `failAt` fails (I/O error,
disk full, …).  Each `conn.execute` runs as its own implicit transaction —
there is no surrounding `BEGIN`/`COMMIT` in the source — so the statements
before the failing one remain applied and the error propagates via `?`.
Returns `(errored, visible state)`. -/
def remove_repo_failing (name : String) (failAt : Nat) (st : DBState) :
    Bool × DBState :=
  match st.repos.find? (fun r => r.name == name) with
  | none => (true, st)
  | some r =>
    (true, ((remove_repo_stmts r.repo_id).take failAt).foldl (fun s f => f s) st)

-- ── search_semantic (queries.rs lines 864-903) ─────────────────────────────

/-- `commitmux_types::SemanticSearchOpts`. -/
structure SemanticSearchOpts where
  limit : Option Nat
  repos : Option (List String)
  since : Option Int
deriving DecidableEq

/-- `serde_json::to_string` of a string array (escaping not modelled; the
names used in this development contain no quotes, backslashes or commas). -/
def jsonEncodeArr (l : List String) : String :=
  "[" ++ String.intercalate "," (l.map fun s => "\"" ++ s ++ "\"") ++ "]"

/-- Splits a char list at every comma. -/
def splitAtCommas (acc : List Char) : List Char → List (List Char)
  | [] => [acc.reverse]
  | c :: cs => if c = ',' then acc.reverse :: splitAtCommas [] cs
      else splitAtCommas (c :: acc) cs

/-- `SELECT value FROM json_each(?)` over the array texts produced by
`jsonEncodeArr`: strip the brackets, split at commas, strip the quotes. -/
def jsonEachValues (s : String) : List String :=
  if s = "[]" then []
  else (splitAtCommas [] (s.data.drop 1).dropLast).map
    fun t => String.mk (t.drop 1).dropLast

/-- Insertion into a list sorted ascending by `key` (stable: equal keys keep
earlier elements first). -/
def insertByKey (key : EmbeddingRow → Int) (e : EmbeddingRow) :
    List EmbeddingRow → List EmbeddingRow
  | [] => [e]
  | x :: xs => if key x ≤ key e then x :: insertByKey key e xs else e :: x :: xs

/-- Stable insertion sort ascending by `key` (`ORDER BY distance`). -/
def sortByKey (key : EmbeddingRow → Int) : List EmbeddingRow →
    List EmbeddingRow
  | [] => []
  | x :: xs => insertByKey key x (sortByKey key xs)

/-- Result record `commitmux_types::SearchResult` as filled by
`search_semantic` (`matched_paths` always empty, `date` is the raw
`author_time`). -/
structure SearchResultM where
  repo : String
  sha : String
  subject : String
  author : String
  date : Int
  matched_paths : List String
  patch_excerpt : String
deriving DecidableEq

/-- `search_semantic` (queries.rs lines 864-903).  The SQL is
`WHERE ce.embedding MATCH ?1 AND k = ?2 AND ('' = ?3 OR ce.repo_name IN
(SELECT value FROM json_each(?3))) AND (?4 = 0 OR ce.author_time >= ?4)
ORDER BY distance`, with `?2 = opts.limit.unwrap_or(10)`,
`?3 = serde_json string of opts.repos (always at least "[]", never "")` and
`?4 = opts.since.unwrap_or(0)`.  The vec0 virtual table answers
`MATCH ... AND k = ?` with the `k` nearest rows by `dist` to the query
vector ordered by distance; SQLite then applies the remaining conditions on
the auxiliary columns as residual filters.  `dist` abstracts the vector
distance computed by the extension. -/
def search_semantic (dist : List Nat → List Nat → Int) (embedding : List Nat)
    (opts : SemanticSearchOpts) (st : DBState) : List SearchResultM :=
  let k := opts.limit.getD 10
  let repos_json := match opts.repos with
    | some r => jsonEncodeArr r
    | none => jsonEncodeArr []
  let since := opts.since.getD 0
  let knn := (sortByKey (fun e => dist embedding e.embedding) st.embeddings).take k
  let kept := knn.filter fun e =>
    (decide (repos_json = "") ||
      decide (e.repo_name ∈ jsonEachValues repos_json)) &&
    (decide (since = 0) || decide (since ≤ e.author_time))
  kept.map fun e =>
    ⟨e.repo_name, e.sha, e.subject, e.author_name, e.author_time, [],
      e.patch_preview.getD ""⟩

-- ── Ingester (walker.rs) ───────────────────────────────────────────────────

/-- The data of one commit produced by the revision walk, after the pure
extraction steps of walker.rs lines 231-259 (metadata, subject/body split)
together with the outputs of `patch::get_commit_files` (the `CommitFile`
list under the effective ignore config) and `patch::get_patch_text`
(`none` when the rendered patch text is empty). -/
structure WalkCommitData where
  sha : String
  author_name : String
  author_email : String
  committer_name : String
  committer_email : String
  author_time : Int
  commit_time : Int
  subject : String
  body : Option String
  parent_count : Nat
  files : List FileRow
  patch_text : Option String
deriving DecidableEq

/-- The `Commit` record walker.rs builds at lines 247-259. -/
def toCommitRec (rid : Int) (w : WalkCommitData) : CommitRec :=
  { repo_id := rid, sha := w.sha, author_name := w.author_name,
    author_email := w.author_email, committer_name := w.committer_name,
    committer_email := w.committer_email, author_time := w.author_time,
    commit_time := w.commit_time, subject := w.subject, body := w.body,
    parent_count := w.parent_count }

/-- `IngestSummary` counters. -/
structure SummaryM where
  commits_indexed : Nat
  commits_already_indexed : Nat
  commits_filtered : Nat
deriving DecidableEq

/-- The author-filter guard of walker.rs lines 262-267: the commit is skipped
(and counted in `commits_filtered`) when a filter is configured and the
author email does not match it case-insensitively. -/
def filteredOut (filter : Option String) (w : WalkCommitData) : Bool :=
  match filter with
  | some f => !eqIgnoreAsciiCase w.author_email f
  | none => false

/-- The body of the revision-walk loop of `sync_repo` (walker.rs lines
191-336) for one commit: skip (and count) commits already in the store;
apply the author filter (`eq_ignore_ascii_case`) counting the rest; else
upsert the commit, its files, and — when the rendered patch text is
non-empty — the patch, whose preview is
`text[..text.floor_char_boundary(500)]` (lines 296-308). -/
def processWalkCommit (codec : Codec) (rid : Int) (filter : Option String)
    (acc : SummaryM × DBState) (w : WalkCommitData) : SummaryM × DBState :=
  let s := acc.1
  let st := acc.2
  if commit_exists rid w.sha st then
    ({ s with commits_already_indexed := s.commits_already_indexed + 1 }, st)
  else if filteredOut filter w then
    ({ s with commits_filtered := s.commits_filtered + 1 }, st)
  else
    let st1 := upsert_commit (toCommitRec rid w) st
    let st2 := upsert_commit_files w.files st1
    let st3 := match w.patch_text with
      | some text =>
        upsert_patch codec
          ⟨rid, w.sha, text, bytePrefix 500 text⟩ st2
      | none => st2
    ({ s with commits_indexed := s.commits_indexed + 1 }, st3)

/-- The revision-walk loop of `sync_repo` over a fixed walk result (the
commits the revwalk yields, oldest first).  The trailing `ingest_state`
write (lines 338-357) touches only `ingest_state` and is elided: it affects
neither the summary counters nor any table read by the modelled queries. -/
def sync_walk (codec : Codec) (rid : Int) (filter : Option String)
    (walked : List WalkCommitData) (st : DBState) : SummaryM × DBState :=
  walked.foldl (processWalkCommit codec rid filter) (⟨0, 0, 0⟩, st)

-- ── Embedder (crates/embed/src/lib.rs) ─────────────────────────────────────

/-- `commitmux_types::EmbedCommit`. -/
structure EmbedCommitRec where
  repo_id : Int
  sha : String
  subject : String
  body : Option String
  files_changed : List String
  patch_preview : Option String
  author_name : String
  author_time : Int
  repo_name : String
deriving DecidableEq

/-- `build_embed_doc` (embed/src/lib.rs lines 76-101).  `none` models a Rust
panic: when the preview exceeds 1600 bytes the code takes `&preview[..1600]`,
and byte index 1600 must be a char boundary or the slice panics. -/
def build_embed_doc (c : EmbedCommitRec) : Option String :=
  let doc := c.subject
  let doc := match c.body with
    | some body => if trimChars body ≠ "" then doc ++ "\n\n" ++ trimChars body
        else doc
    | none => doc
  let doc := if c.files_changed.isEmpty then doc
    else doc ++ "\n\nFiles changed: " ++ String.intercalate ", " c.files_changed
  match c.patch_preview with
  | some preview =>
    if trimChars preview ≠ "" then
      if 1600 < utf8Len preview then
        if charBoundary preview.data 1600 then
          some (doc ++ "\n\n" ++ bytePrefix 1600 preview)
        else none
      else some (doc ++ "\n\n" ++ preview)
    else some doc
  | none => some doc

-- ── Invariants ─────────────────────────────────────────────────────────────

/-- Structural well-formedness of the database (facts SQLite itself
guarantees): rowids of `commits` are distinct, the `(repo_id, sha)` primary
key of `commits` is unique, rowids of `commits_fts` entries are distinct,
and all rowids are below the next free rowid. -/
def wf (st : DBState) : Prop :=
  st.commits.Pairwise (fun a b => a.rowid ≠ b.rowid) ∧
  st.commits.Pairwise (fun a b => ¬(a.repo_id = b.repo_id ∧ a.sha = b.sha)) ∧
  st.commits_fts.Pairwise (fun a b => a.rowid ≠ b.rowid) ∧
  (∀ c ∈ st.commits, c.rowid < st.next_rowid) ∧
  (∀ f ∈ st.commits_fts, f.rowid < st.next_rowid)

/-- FTS coherence (spec §3, cross-entity invariant 1): every `commits_fts`
row points at a live `commits` row with the same rowid, and its column
values equal that commit's current subject, body and patch preview. -/
def coherent (st : DBState) : Prop :=
  ∀ f ∈ st.commits_fts, ∃ c ∈ st.commits,
    c.rowid = f.rowid ∧ f.subject = c.subject ∧ f.body = c.body ∧
      f.patch_preview = c.patch_preview

/-- Number of `commits` rows with the given `(repo_id, sha)` key. -/
def commitsCountKey (rid : Int) (sha : String) (st : DBState) : Nat :=
  (st.commits.filter fun r => r.repo_id == rid && r.sha == sha).length

/-- Number of `commits_fts` rows attached (by rowid) to a `commits` row with
the given `(repo_id, sha)` key. -/
def ftsCountKey (rid : Int) (sha : String) (st : DBState) : Nat :=
  (st.commits_fts.filter fun f =>
    (st.commits.filter fun r => r.repo_id == rid && r.sha == sha).any
      fun r => r.rowid == f.rowid).length

/-- FTS `MATCH` on a single token: the rowids of the index entries one of
whose columns contains the token. -/
def ftsMatchRowids (tok : String) (st : DBState) : List Nat :=
  (st.commits_fts.filter fun f =>
    listHasSub tok.data f.subject.data ||
    listHasSub tok.data (f.body.getD "").data ||
    listHasSub tok.data f.patch_preview.data).map (fun f => f.rowid)

/-- The stored `patch_preview` of the commits row with the given key. -/
def readPreview (rid : Int) (sha : String) (st : DBState) : Option String :=
  (findCommitByKey rid sha st.commits).map (fun r => r.patch_preview)

instance (st : DBState) : Decidable (wf st) := by
  unfold wf; infer_instance

instance (st : DBState) : Decidable (coherent st) := by
  unfold coherent; infer_instance

-- ── Concrete instances used by witnesses and counterexamples ───────────────

/-- A trivial codec, used where the stored blob is never decoded. -/
def codec0 : Codec := ⟨fun _ => [], fun _ => ""⟩

/-- A codec that inverts its encoding on the text `"x"`. -/
def codecX : Codec := ⟨fun _ => [0], fun _ => "x"⟩

/-- A degenerate vector distance (all rows equidistant). -/
def dist0 : List Nat → List Nat → Int := fun _ _ => 0

def exCommit : CommitRec :=
  { repo_id := 1, sha := "deadbeef", author_name := "Alice",
    author_email := "alice@example.com", committer_name := "Alice",
    committer_email := "alice@example.com", author_time := 1700000000,
    commit_time := 1700000000, subject := "Fix the thing", body := none,
    parent_count := 0 }

def exPatch : PatchRec :=
  ⟨1, "deadbeef", "diff text", "diff text"⟩

/-- U+00E9, a 2-byte character in UTF-8. -/
def eAcute : Char := Char.ofNat 233

/-- 251 two-byte characters: 502 UTF-8 bytes but only 251 characters. -/
def c2text : String := String.mk (List.replicate 251 eAcute)

def wC2 : WalkCommitData :=
  { sha := "deadbeef", author_name := "Alice",
    author_email := "alice@example.com", committer_name := "Alice",
    committer_email := "alice@example.com", author_time := 10,
    commit_time := 10, subject := "one", body := none, parent_count := 0,
    files := [], patch_text := some c2text }

def wSmall : WalkCommitData :=
  { wC2 with patch_text := some "ab" }

def wAlice : WalkCommitData :=
  { wC2 with sha := "aaa", patch_text := none }

def wBob : WalkCommitData :=
  { wC2 with
    sha := "bbb",
    author_name := "Bob",
    author_email := "bob@example.com",
    patch_text := none }

def exC3State : DBState :=
  { emptyDB with
    repos := [⟨1, "r", none⟩],
    commit_patches := [⟨1, "s", [0]⟩],
    commit_files := [⟨1, "s", "src/main.rs", "A", none⟩] }

def exEmb : EmbeddingRow :=
  { embed_id := 1, embedding := [0], sha := "s", subject := "subj",
    repo_name := "repo1", author_name := "a", author_time := 5,
    patch_preview := none }

def exC4State : DBState :=
  { emptyDB with embeddings := [exEmb] }

/-- A patch preview of 1602 UTF-8 bytes where byte offset 1600 falls inside
the two-byte character at positions 1599-1600. -/
def c9preview : String := String.mk (List.replicate 1599 'a' ++ [eAcute, 'a'])

def c9rec : EmbedCommitRec :=
  { repo_id := 1, sha := "abc123", subject := "Fix overflow", body := none,
    files_changed := [], patch_preview := some c9preview,
    author_name := "Alice", author_time := 0, repo_name := "r" }

def exRepoState : DBState :=
  { emptyDB with repos := [⟨1, "r", none⟩] }

def exPatchState : DBState :=
  { emptyDB with
    repos := [⟨1, "r", none⟩],
    commit_patches := [⟨1, "s", [0]⟩] }

def exNegRow : CommitRow :=
  { rowid := 1, repo_id := 1, sha := "negsha", author_name := "Alice",
    author_email := "alice@example.com", committer_name := "Alice",
    committer_email := "alice@example.com", author_time := -5,
    commit_time := -5, subject := "old commit", body := none,
    parent_count := 0, patch_preview := "" }

def exNegState : DBState :=
  { emptyDB with
    repos := [⟨1, "r", none⟩],
    commits := [exNegRow] }

-- ── Helper lemmas ──────────────────────────────────────────────────────────

/-- The `(repo_id, sha)` primary key of a `commits` row. -/
def commitKey (r : CommitRow) : Int × String := (r.repo_id, r.sha)

theorem pairwise_key_eq {α κ : Type} (key : α → κ) :
    ∀ {l : List α}, (l.Pairwise fun a b => key a ≠ key b) →
      ∀ {a b : α}, a ∈ l → b ∈ l → key a = key b → a = b
  | [], _, _, _, ha, _, _ => absurd ha (List.not_mem_nil _)
  | x :: xs, h, a, b, ha, hb, hk => by
    rw [List.pairwise_cons] at h
    rcases List.mem_cons.mp ha with rfl | ha2 <;>
      rcases List.mem_cons.mp hb with rfl | hb2
    · rfl
    · exact absurd hk (h.1 _ hb2)
    · exact absurd hk.symm (h.1 _ ha2)
    · exact pairwise_key_eq key h.2 ha2 hb2 hk

theorem keyB_iff (r : CommitRow) (rid : Int) (sha : String) :
    (r.repo_id == rid && r.sha == sha) = true ↔ commitKey r = (rid, sha) := by
  simp [commitKey, Prod.ext_iff]

theorem find?_append_of_none {α : Type} {p : α → Bool} :
    ∀ {l1 : List α} (l2 : List α), l1.find? p = none →
      (l1 ++ l2).find? p = l2.find? p
  | [], _, _ => rfl
  | x :: xs, l2, h => by
    simp only [List.find?_cons] at h
    simp only [List.cons_append, List.find?_cons]
    cases hx : p x with
    | true => simp [hx] at h
    | false =>
      simp only [hx] at h ⊢
      exact find?_append_of_none l2 h

theorem ftsDelete_sublist (rowid : Nat) (subject : String) (body : Option String)
    (pp : String) (l : List FtsRow) :
    List.Sublist (ftsDelete rowid subject body pp l) l :=
  List.filter_sublist l

theorem upsert_commit_shape (c : CommitRec) (st : DBState) :
    ∃ fts1, List.Sublist fts1 st.commits_fts ∧
      upsert_commit c st =
        { st with
          commits :=
            (st.commits.filter fun r =>
              !(r.repo_id == c.repo_id && r.sha == c.sha)) ++ [newCommitRow c st],
          commits_fts := fts1 ++ [⟨st.next_rowid, c.subject, c.body, ""⟩],
          next_rowid := st.next_rowid + 1 } := by
  cases hfind : findCommitByKey c.repo_id c.sha st.commits with
  | none =>
    refine ⟨st.commits_fts, List.Sublist.refl _, ?_⟩
    simp only [upsert_commit, hfind]
  | some old =>
    refine ⟨ftsDelete old.rowid old.subject old.body old.patch_preview
      st.commits_fts, ftsDelete_sublist _ _ _ _ _, ?_⟩
    simp only [upsert_commit, hfind]

theorem upsert_commit_wf (c : CommitRec) (st : DBState) (h : wf st) :
    wf (upsert_commit c st) := by
  obtain ⟨hrow, hkey, hfts, hbc, hbf⟩ := h
  obtain ⟨fts1, hsub, heq⟩ := upsert_commit_shape c st
  rw [heq]
  refine ⟨?_, ?_, ?_, ?_, ?_⟩
  · rw [List.pairwise_append]
    refine ⟨List.Pairwise.sublist (List.filter_sublist _) hrow,
      List.pairwise_singleton _ _, ?_⟩
    intro a ha b hb
    rw [List.mem_singleton] at hb
    subst hb
    have : a ∈ st.commits := (List.mem_filter.mp ha).1
    exact Nat.ne_of_lt (hbc a this)
  · rw [List.pairwise_append]
    refine ⟨List.Pairwise.sublist (List.filter_sublist _) hkey,
      List.pairwise_singleton _ _, ?_⟩
    intro a ha b hb hk
    rw [List.mem_singleton] at hb
    subst hb
    have hpa := (List.mem_filter.mp ha).2
    rw [Bool.not_eq_eq_eq_not, Bool.not_true] at hpa
    have h1 : a.repo_id = c.repo_id := hk.1
    have h2 : a.sha = c.sha := hk.2
    simp [h1, h2] at hpa
  · rw [List.pairwise_append]
    refine ⟨List.Pairwise.sublist hsub hfts, List.pairwise_singleton _ _, ?_⟩
    intro a ha b hb
    rw [List.mem_singleton] at hb
    subst hb
    exact Nat.ne_of_lt (hbf a (hsub.subset ha))
  · intro r hr
    rcases List.mem_append.mp hr with h1 | h2
    · exact Nat.lt_succ_of_lt (hbc r (List.mem_filter.mp h1).1)
    · rw [List.mem_singleton] at h2
      subst h2
      exact Nat.lt_succ_self _
  · intro f hf
    rcases List.mem_append.mp hf with h1 | h2
    · exact Nat.lt_succ_of_lt (hbf f (hsub.subset h1))
    · rw [List.mem_singleton] at h2
      subst h2
      exact Nat.lt_succ_self _

theorem commits_rowid_unique {l : List CommitRow}
    (h : l.Pairwise fun a b => a.rowid ≠ b.rowid)
    {a b : CommitRow} (ha : a ∈ l) (hb : b ∈ l) (hr : a.rowid = b.rowid) :
    a = b :=
  pairwise_key_eq CommitRow.rowid h ha hb hr

theorem fts_rowid_unique {l : List FtsRow}
    (h : l.Pairwise fun a b => a.rowid ≠ b.rowid)
    {a b : FtsRow} (ha : a ∈ l) (hb : b ∈ l) (hr : a.rowid = b.rowid) :
    a = b :=
  pairwise_key_eq FtsRow.rowid h ha hb hr

theorem commits_key_unique {l : List CommitRow}
    (h : l.Pairwise fun a b => ¬(a.repo_id = b.repo_id ∧ a.sha = b.sha))
    {a b : CommitRow} (ha : a ∈ l) (hb : b ∈ l)
    (h1 : a.repo_id = b.repo_id) (h2 : a.sha = b.sha) : a = b := by
  have h' : l.Pairwise fun a b => commitKey a ≠ commitKey b :=
    h.imp (by
      intro x y hxy hk
      exact hxy ⟨congrArg Prod.fst hk, congrArg Prod.snd hk⟩)
  exact pairwise_key_eq commitKey h' ha hb (by simp [commitKey, h1, h2])

theorem upsert_commit_coherent (c : CommitRec) (st : DBState) (hwf : wf st)
    (hco : coherent st) : coherent (upsert_commit c st) := by
  obtain ⟨hrowU, hkeyU, hftsU, hbc, hbf⟩ := hwf
  cases hfind : findCommitByKey c.repo_id c.sha st.commits with
  | none =>
    have hfind2 : List.find? (fun r => r.repo_id == c.repo_id && r.sha == c.sha)
        st.commits = none := hfind
    have hnone := List.find?_eq_none.mp hfind2
    simp only [upsert_commit, hfind, coherent]
    intro f hf
    rcases List.mem_append.mp hf with hf1 | hf2
    · obtain ⟨cr, hcr, h1, h2, h3, h4⟩ := hco f hf1
      refine ⟨cr, List.mem_append.mpr (Or.inl (List.mem_filter.mpr
        ⟨hcr, ?_⟩)), h1, h2, h3, h4⟩
      have hx := hnone cr hcr
      simp only [Bool.not_eq_true] at hx
      simp [hx]
    · rw [List.mem_singleton] at hf2
      subst hf2
      exact ⟨newCommitRow c st,
        List.mem_append.mpr (Or.inr (List.mem_singleton.mpr rfl)),
        rfl, rfl, rfl, rfl⟩
  | some old =>
    have hfind2 : List.find? (fun r => r.repo_id == c.repo_id && r.sha == c.sha)
        st.commits = some old := hfind
    have holdmem : old ∈ st.commits := List.mem_of_find?_eq_some hfind2
    have holdpred := List.find?_some hfind2
    rw [Bool.and_eq_true, beq_iff_eq, beq_iff_eq] at holdpred
    simp only [upsert_commit, hfind, coherent]
    intro f hf
    rcases List.mem_append.mp hf with hf1 | hf2
    · have hfmem : f ∈ st.commits_fts := (List.mem_filter.mp hf1).1
      obtain ⟨cr, hcr, h1, h2, h3, h4⟩ := hco f hfmem
      by_cases hkeq : cr.repo_id = c.repo_id ∧ cr.sha = c.sha
      · exfalso
        have hcreqold : cr = old := commits_key_unique hkeyU hcr holdmem
          (hkeq.1.trans holdpred.1.symm) (hkeq.2.trans holdpred.2.symm)
        subst hcreqold
        have hx := (List.mem_filter.mp hf1).2
        simp [← h1, h2, h3, h4] at hx
      · refine ⟨cr, List.mem_append.mpr (Or.inl (List.mem_filter.mpr
          ⟨hcr, ?_⟩)), h1, h2, h3, h4⟩
        simp only [Bool.not_eq_eq_eq_not, Bool.not_true, Bool.and_eq_false_iff,
          beq_eq_false_iff_ne, ne_eq]
        by_cases hc1 : cr.repo_id = c.repo_id
        · exact Or.inr fun hc2 => hkeq ⟨hc1, hc2⟩
        · exact Or.inl hc1
    · rw [List.mem_singleton] at hf2
      subst hf2
      exact ⟨newCommitRow c st,
        List.mem_append.mpr (Or.inr (List.mem_singleton.mpr rfl)),
        rfl, rfl, rfl, rfl⟩

theorem filter_key_upsert_commit (c : CommitRec) (st : DBState) :
    ((upsert_commit c st).commits.filter fun r =>
      r.repo_id == c.repo_id && r.sha == c.sha) = [newCommitRow c st] := by
  obtain ⟨fts1, _, heq⟩ := upsert_commit_shape c st
  rw [heq]
  simp only [List.filter_append, List.filter_filter]
  rw [show (List.filter (fun r =>
      (r.repo_id == c.repo_id && r.sha == c.sha) &&
        !(r.repo_id == c.repo_id && r.sha == c.sha)) st.commits) = [] from ?_]
  · simp [List.filter, newCommitRow]
  · rw [List.filter_eq_nil_iff]
    intro a _
    simp only [Bool.and_not_self, Bool.false_eq_true, not_false_eq_true]

theorem upsert_commit_countKey (c : CommitRec) (st : DBState) :
    commitsCountKey c.repo_id c.sha (upsert_commit c st) = 1 := by
  unfold commitsCountKey
  rw [filter_key_upsert_commit]
  rfl

theorem upsert_commit_ftsCountKey (c : CommitRec) (st : DBState) (hwf : wf st) :
    ftsCountKey c.repo_id c.sha (upsert_commit c st) = 1 := by
  obtain ⟨hrowU, hkeyU, hftsU, hbc, hbf⟩ := hwf
  unfold ftsCountKey
  rw [filter_key_upsert_commit]
  obtain ⟨fts1, hsub, heq⟩ := upsert_commit_shape c st
  rw [heq]
  simp only [List.filter_append]
  rw [show (List.filter (fun f => [newCommitRow c st].any fun r =>
      r.rowid == f.rowid) fts1) = [] from ?_]
  · simp [newCommitRow]
  · rw [List.filter_eq_nil_iff]
    intro f hf
    have hlt : f.rowid < st.next_rowid := hbf f (hsub.subset hf)
    have hne : st.next_rowid ≠ f.rowid := Nat.ne_of_gt hlt
    simp [newCommitRow, hne]

theorem upsert_commit_wf_iter (c : CommitRec) (st : DBState) (hwf : wf st) :
    ∀ m : Nat, wf ((upsert_commit c)^[m] st) := by
  intro m
  induction m with
  | zero => exact hwf
  | succ k ih =>
    rw [Function.iterate_succ_apply']
    exact upsert_commit_wf c _ ih

theorem upsert_patch_coherent (codec : Codec) (p : PatchRec) (st : DBState)
    (hwf : wf st) (hco : coherent st) : coherent (upsert_patch codec p st) := by
  obtain ⟨hrowU, hkeyU, hftsU, hbc, hbf⟩ := hwf
  cases hfind : findCommitByKey p.repo_id p.sha st.commits with
  | none =>
    simp only [upsert_patch, hfind, coherent]
    exact hco
  | some row =>
    have hfind2 : List.find? (fun r => r.repo_id == p.repo_id && r.sha == p.sha)
        st.commits = some row := hfind
    have hrowmem : row ∈ st.commits := List.mem_of_find?_eq_some hfind2
    simp only [upsert_patch, hfind, coherent]
    intro f hf
    rcases List.mem_append.mp hf with hf1 | hf2
    · have hfmem : f ∈ st.commits_fts := (List.mem_filter.mp hf1).1
      obtain ⟨cr, hcr, h1, h2, h3, h4⟩ := hco f hfmem
      by_cases hreq : cr.rowid = row.rowid
      · exfalso
        have hcreq : cr = row := commits_rowid_unique hrowU hcr hrowmem hreq
        subst hcreq
        have hx := (List.mem_filter.mp hf1).2
        simp [← h1, h2, h3, h4] at hx
      · refine ⟨cr, ?_, ?_, h2, h3, h4⟩
        · refine List.mem_map.mpr ⟨cr, hcr, ?_⟩
          rw [if_neg]
          simp [hreq]
        · exact h1
    · rw [List.mem_singleton] at hf2
      subst hf2
      refine ⟨{ row with patch_preview := charsTake 500 p.patch_preview },
        List.mem_map.mpr ⟨row, hrowmem, ?_⟩, rfl, rfl, rfl, rfl⟩
      rw [if_pos]
      simp

theorem upsert_commit_match (c : CommitRec) (st : DBState) (hwf : wf st) :
    ∀ row ∈ (upsert_commit c st).commits,
      row.repo_id = c.repo_id → row.sha = c.sha →
      ∀ tok : String,
        (listHasSub tok.data row.subject.data ||
          listHasSub tok.data (row.body.getD "").data ||
          listHasSub tok.data row.patch_preview.data) = true →
        row.rowid ∈ ftsMatchRowids tok (upsert_commit c st) := by
  intro row hrow hr1 hr2 tok htok
  have hwf2 := upsert_commit_wf c st hwf
  obtain ⟨_, hkeyU2, _, _, _⟩ := hwf2
  obtain ⟨fts1, hsub, heq⟩ := upsert_commit_shape c st
  have hnewmem : newCommitRow c st ∈ (upsert_commit c st).commits := by
    rw [heq]
    exact List.mem_append.mpr (Or.inr (List.mem_singleton.mpr rfl))
  have hroweq : row = newCommitRow c st := by
    refine commits_key_unique hkeyU2 hrow hnewmem ?_ ?_
    · exact hr1
    · exact hr2
  subst hroweq
  unfold ftsMatchRowids
  refine List.mem_map.mpr ⟨⟨st.next_rowid, c.subject, c.body, ""⟩,
    List.mem_filter.mpr ⟨?_, ?_⟩, rfl⟩
  · rw [heq]
    exact List.mem_append.mpr (Or.inr (List.mem_singleton.mpr rfl))
  · exact htok

theorem upsert_patch_match (codec : Codec) (p : PatchRec) (st : DBState)
    (hwf : wf st) :
    ∀ row ∈ (upsert_patch codec p st).commits,
      row.repo_id = p.repo_id → row.sha = p.sha →
      ∀ tok : String,
        (listHasSub tok.data row.subject.data ||
          listHasSub tok.data (row.body.getD "").data ||
          listHasSub tok.data row.patch_preview.data) = true →
        row.rowid ∈ ftsMatchRowids tok (upsert_patch codec p st) := by
  obtain ⟨hrowU, hkeyU, hftsU, hbc, hbf⟩ := hwf
  intro row hrow hr1 hr2 tok htok
  cases hfind : findCommitByKey p.repo_id p.sha st.commits with
  | none =>
    exfalso
    have hfind2 : List.find? (fun r => r.repo_id == p.repo_id && r.sha == p.sha)
        st.commits = none := hfind
    have hrow2 : row ∈ st.commits := by
      have := hrow
      simp only [upsert_patch, hfind] at this
      exact this
    have := List.find?_eq_none.mp hfind2 row hrow2
    simp [hr1, hr2] at this
  | some found =>
    have hfind2 : List.find? (fun r => r.repo_id == p.repo_id && r.sha == p.sha)
        st.commits = some found := hfind
    have hfoundmem : found ∈ st.commits := List.mem_of_find?_eq_some hfind2
    have hfoundpred := List.find?_some hfind2
    rw [Bool.and_eq_true, beq_iff_eq, beq_iff_eq] at hfoundpred
    have hrow2 := hrow
    simp only [upsert_patch, hfind] at hrow2
    obtain ⟨r0, hr0, hupd⟩ := List.mem_map.mp hrow2
    have hr0key : r0.repo_id = p.repo_id ∧ r0.sha = p.sha := by
      by_cases hc : r0.rowid == found.rowid
      · rw [if_pos hc] at hupd
        subst hupd
        exact ⟨hr1, hr2⟩
      · rw [if_neg hc] at hupd
        subst hupd
        exact ⟨hr1, hr2⟩
    have hr0found : r0 = found := commits_key_unique hkeyU hr0 hfoundmem
      (hr0key.1.trans hfoundpred.1.symm) (hr0key.2.trans hfoundpred.2.symm)
    subst hr0found
    rw [if_pos (by simp)] at hupd
    subst hupd
    simp only [upsert_patch, hfind]
    unfold ftsMatchRowids
    refine List.mem_map.mpr
      ⟨⟨r0.rowid, r0.subject, r0.body, charsTake 500 p.patch_preview⟩,
        List.mem_filter.mpr ⟨List.mem_append.mpr (Or.inr
          (List.mem_singleton.mpr rfl)), ?_⟩, rfl⟩
    exact htok

theorem one_le_utf8Size (c : Char) : 1 ≤ c.utf8Size :=
  Char.utf8Size_pos c

theorem takeBytesAux_length_le (l : List Char) : ∀ n : Nat,
    (takeBytesAux l n).length ≤ n := by
  induction l with
  | nil => intro n; simp [takeBytesAux]
  | cons c cs ih =>
    intro n
    simp only [takeBytesAux]
    split
    · next h =>
      have h1 := one_le_utf8Size c
      have h2 := ih (n - c.utf8Size)
      simp only [List.length_cons]
      omega
    · simp

theorem charsTake_bytePrefix (n : Nat) (s : String) :
    charsTake n (bytePrefix n s) = bytePrefix n s := by
  unfold charsTake bytePrefix
  congr 1
  exact List.take_of_length_le (takeBytesAux_length_le _ _)

theorem length_le_sum_utf8 (l : List Char) :
    l.length ≤ (l.map Char.utf8Size).sum := by
  induction l with
  | nil => simp
  | cons c cs ih =>
    have := one_le_utf8Size c
    simp only [List.length_cons, List.map_cons, List.sum_cons]
    omega

theorem findCommitByKey_upsert_commit (c : CommitRec) (st : DBState) :
    findCommitByKey c.repo_id c.sha (upsert_commit c st).commits =
      some (newCommitRow c st) := by
  obtain ⟨fts1, _, heq⟩ := upsert_commit_shape c st
  rw [heq]
  unfold findCommitByKey
  rw [find?_append_of_none]
  · simp [newCommitRow]
  · rw [List.find?_eq_none]
    intro r hr
    have := (List.mem_filter.mp hr).2
    simp only [Bool.not_eq_eq_eq_not, Bool.not_true] at this
    simp [this]

theorem upsert_commit_files_commits (files : List FileRow) (st : DBState) :
    (upsert_commit_files files st).commits = st.commits := by
  cases files <;> rfl

theorem upsert_commit_files_fields (files : List FileRow) (st : DBState) :
    (upsert_commit_files files st).commits = st.commits ∧
    (upsert_commit_files files st).repos = st.repos ∧
    (upsert_commit_files files st).next_rowid = st.next_rowid := by
  cases files <;> exact ⟨rfl, rfl, rfl⟩

theorem findCommitByKey_map_keyfix (rid : Int) (sha : String)
    (g : CommitRow → CommitRow)
    (hg : ∀ r, (g r).repo_id = r.repo_id ∧ (g r).sha = r.sha) :
    ∀ l : List CommitRow,
      findCommitByKey rid sha (l.map g) = (findCommitByKey rid sha l).map g := by
  intro l
  induction l with
  | nil => rfl
  | cons x xs ih =>
    unfold findCommitByKey at ih ⊢
    simp only [List.map_cons, List.find?_cons]
    rw [(hg x).1, (hg x).2]
    cases hx : (x.repo_id == rid && x.sha == sha) with
    | true => rfl
    | false => exact ih

theorem readPreview_upsert_patch (codec : Codec) (rid : Int)
    (sha pb pv : String) (st : DBState) (row : CommitRow)
    (hfind : findCommitByKey rid sha st.commits = some row) :
    readPreview rid sha (upsert_patch codec ⟨rid, sha, pb, pv⟩ st) =
      some (charsTake 500 pv) := by
  simp only [upsert_patch, hfind, readPreview]
  rw [findCommitByKey_map_keyfix rid sha _ ?_ st.commits]
  · rw [hfind]
    simp [Function.comp]
  · intro r
    by_cases h : r.rowid == row.rowid
    · rw [if_pos h]; exact ⟨rfl, rfl⟩
    · rw [if_neg h]; exact ⟨rfl, rfl⟩

theorem commit_exists_upsert_commit (rid : Int) (sha : String) (c : CommitRec)
    (st : DBState) (h : commit_exists rid sha st = true) :
    commit_exists rid sha (upsert_commit c st) = true := by
  obtain ⟨fts1, _, heq⟩ := upsert_commit_shape c st
  rw [heq]
  unfold commit_exists at h ⊢
  rw [List.any_eq_true] at h ⊢
  obtain ⟨r, hr, hpred⟩ := h
  rw [Bool.and_eq_true, beq_iff_eq, beq_iff_eq] at hpred
  by_cases hc : r.repo_id = c.repo_id ∧ r.sha = c.sha
  · refine ⟨newCommitRow c st,
      List.mem_append.mpr (Or.inr (List.mem_singleton.mpr rfl)), ?_⟩
    simp [newCommitRow, ← hc.1, ← hc.2, hpred.1, hpred.2]
  · refine ⟨r, List.mem_append.mpr (Or.inl (List.mem_filter.mpr ⟨hr, ?_⟩)),
      by simp [hpred.1, hpred.2]⟩
    simp only [Bool.not_eq_eq_eq_not, Bool.not_true, Bool.and_eq_false_iff,
      beq_eq_false_iff_ne, ne_eq]
    by_cases hc1 : r.repo_id = c.repo_id
    · exact Or.inr fun hc2 => hc ⟨hc1, hc2⟩
    · exact Or.inl hc1

theorem commit_exists_upsert_commit_self (c : CommitRec) (st : DBState) :
    commit_exists c.repo_id c.sha (upsert_commit c st) = true := by
  obtain ⟨fts1, _, heq⟩ := upsert_commit_shape c st
  rw [heq]
  unfold commit_exists
  rw [List.any_eq_true]
  exact ⟨newCommitRow c st,
    List.mem_append.mpr (Or.inr (List.mem_singleton.mpr rfl)),
    by simp [newCommitRow]⟩

theorem commit_exists_upsert_files (rid : Int) (sha : String)
    (files : List FileRow) (st : DBState) :
    commit_exists rid sha (upsert_commit_files files st) =
      commit_exists rid sha st := by
  unfold commit_exists
  rw [upsert_commit_files_commits]

theorem commit_exists_upsert_patch (rid : Int) (sha : String) (codec : Codec)
    (p : PatchRec) (st : DBState) :
    commit_exists rid sha (upsert_patch codec p st) =
      commit_exists rid sha st := by
  cases hfind : findCommitByKey p.repo_id p.sha st.commits with
  | none =>
    simp only [upsert_patch, hfind]
    rfl
  | some row =>
    simp only [upsert_patch, hfind]
    unfold commit_exists
    simp only [List.any_map]
    congr 1
    funext r
    by_cases h : r.rowid = row.rowid
    · simp [Function.comp, if_pos h]
    · simp [Function.comp, if_neg h]

theorem commit_exists_process (codec : Codec) (rid : Int)
    (filter : Option String) (w : WalkCommitData) (rid2 : Int) (sha2 : String)
    (acc : SummaryM × DBState) (h : commit_exists rid2 sha2 acc.2 = true) :
    commit_exists rid2 sha2 (processWalkCommit codec rid filter acc w).2 =
      true := by
  obtain ⟨s, st⟩ := acc
  unfold processWalkCommit
  by_cases hex : commit_exists rid w.sha st
  · rw [if_pos hex]
    exact h
  · rw [if_neg hex]
    by_cases hfil : filteredOut filter w = true
    · rw [if_pos hfil]
      exact h
    · rw [if_neg hfil]
      cases hpt : w.patch_text with
      | none =>
        simp only [hpt]
        rw [commit_exists_upsert_files]
        exact commit_exists_upsert_commit _ _ _ _ h
      | some text =>
        simp only [hpt]
        rw [commit_exists_upsert_patch, commit_exists_upsert_files]
        exact commit_exists_upsert_commit _ _ _ _ h

theorem commit_exists_foldl (codec : Codec) (rid : Int)
    (filter : Option String) (rid2 : Int) (sha2 : String) :
    ∀ (walked : List WalkCommitData) (acc : SummaryM × DBState),
      commit_exists rid2 sha2 acc.2 = true →
      commit_exists rid2 sha2
        (walked.foldl (processWalkCommit codec rid filter) acc).2 = true := by
  intro walked
  induction walked with
  | nil => intro acc h; exact h
  | cons x xs ih =>
    intro acc h
    rw [List.foldl_cons]
    exact ih _ (commit_exists_process codec rid filter x rid2 sha2 acc h)

theorem process_exists_self (codec : Codec) (rid : Int) (filter : Option String)
    (acc : SummaryM × DBState) (w : WalkCommitData) :
    commit_exists rid w.sha (processWalkCommit codec rid filter acc w).2 = true ∨
    filteredOut filter w = true := by
  obtain ⟨s, st⟩ := acc
  simp only [processWalkCommit]
  by_cases hex : commit_exists rid w.sha st = true
  · rw [if_pos hex]
    exact Or.inl hex
  · rw [if_neg hex]
    by_cases hfil : filteredOut filter w = true
    · exact Or.inr hfil
    · rw [if_neg hfil]
      refine Or.inl ?_
      cases hpt : w.patch_text with
      | none =>
        simp only [hpt]
        rw [commit_exists_upsert_files]
        exact commit_exists_upsert_commit_self (toCommitRec rid w) st
      | some text =>
        simp only [hpt]
        rw [commit_exists_upsert_patch, commit_exists_upsert_files]
        exact commit_exists_upsert_commit_self (toCommitRec rid w) st

theorem sync_exists_or_filtered (codec : Codec) (rid : Int)
    (filter : Option String) :
    ∀ (walked : List WalkCommitData) (acc : SummaryM × DBState)
      (w : WalkCommitData), w ∈ walked →
      commit_exists rid w.sha
        (walked.foldl (processWalkCommit codec rid filter) acc).2 = true ∨
      filteredOut filter w = true := by
  intro walked
  induction walked with
  | nil =>
    intro acc w hw
    exact absurd hw (List.not_mem_nil _)
  | cons x xs ih =>
    intro acc w hw
    rw [List.foldl_cons]
    rcases List.mem_cons.mp hw with rfl | hw2
    · rcases process_exists_self codec rid filter acc w with hex | hfil
      · exact Or.inl (commit_exists_foldl codec rid filter rid w.sha xs _ hex)
      · exact Or.inr hfil
    · exact ih _ w hw2

theorem sync_fold_stable (codec : Codec) (rid : Int) (filter : Option String) :
    ∀ (walked : List WalkCommitData) (s : SummaryM) (st : DBState),
      (∀ w ∈ walked, commit_exists rid w.sha st = true ∨
        filteredOut filter w = true) →
      (walked.foldl (processWalkCommit codec rid filter) (s, st)).2 = st ∧
      (walked.foldl (processWalkCommit codec rid filter)
        (s, st)).1.commits_indexed = s.commits_indexed ∧
      (walked.foldl (processWalkCommit codec rid filter)
          (s, st)).1.commits_already_indexed +
        (walked.foldl (processWalkCommit codec rid filter)
          (s, st)).1.commits_filtered =
        s.commits_already_indexed + s.commits_filtered + walked.length ∧
      (filter = none →
        (walked.foldl (processWalkCommit codec rid filter)
          (s, st)).1.commits_filtered = s.commits_filtered) := by
  intro walked
  induction walked with
  | nil =>
    intro s st _
    exact ⟨rfl, rfl, rfl, fun _ => rfl⟩
  | cons x xs ih =>
    intro s st h
    rw [List.foldl_cons]
    by_cases hex : commit_exists rid x.sha st = true
    · have hstep : processWalkCommit codec rid filter (s, st) x =
          ({ s with commits_already_indexed := s.commits_already_indexed + 1 },
            st) := by
        simp only [processWalkCommit]
        rw [if_pos hex]
      rw [hstep]
      obtain ⟨h1, h2, h3, h4⟩ := ih _ st (fun w hw => h w (List.mem_cons_of_mem x hw))
      refine ⟨h1, h2, ?_, h4⟩
      rw [h3]
      simp only [List.length_cons]
      omega
    · have hfil : filteredOut filter x = true := by
        rcases h x (List.mem_cons_self x xs) with hx | hx
        · exact absurd hx hex
        · exact hx
      have hstep : processWalkCommit codec rid filter (s, st) x =
          ({ s with commits_filtered := s.commits_filtered + 1 }, st) := by
        simp only [processWalkCommit]
        rw [if_neg hex, if_pos hfil]
      rw [hstep]
      obtain ⟨h1, h2, h3, h4⟩ := ih _ st (fun w hw => h w (List.mem_cons_of_mem x hw))
      refine ⟨h1, h2, ?_, ?_⟩
      · rw [h3]
        simp only [List.length_cons]
        omega
      · intro hfn
        subst hfn
        simp only [filteredOut, Bool.false_eq_true] at hfil

theorem upsert_patch_patches (codec : Codec) (p : PatchRec) (st : DBState) :
    (upsert_patch codec p st).commit_patches =
      (st.commit_patches.filter fun r =>
        !(r.repo_id == p.repo_id && r.sha == p.sha)) ++
        [⟨p.repo_id, p.sha, codec.encode p.patch_blob⟩] ∧
    (upsert_patch codec p st).repos = st.repos := by
  cases hfind : findCommitByKey p.repo_id p.sha st.commits <;>
    simp only [upsert_patch, hfind] <;> exact ⟨trivial, trivial⟩

theorem get_patch_after_upsert (codec : Codec) (st : DBState) (rid : Int)
    (nm sha T pv : String)
    (hname : ∀ r ∈ st.repos, r.name = nm → r.repo_id = rid)
    (hrepo : ∃ r ∈ st.repos, r.repo_id = rid ∧ r.name = nm) :
    get_patch codec nm sha none (upsert_patch codec ⟨rid, sha, T, pv⟩ st) =
      some ⟨nm, sha, codec.decodeLossy (codec.encode T)⟩ := by
  obtain ⟨hpat, hrep⟩ := upsert_patch_patches codec ⟨rid, sha, T, pv⟩ st
  unfold get_patch
  rw [hpat, hrep]
  rw [find?_append_of_none]
  · have hsingle : List.find? (fun q => (st.repos.any fun r =>
        r.repo_id == q.repo_id && r.name == nm) && q.sha == sha)
        [(⟨rid, sha, codec.encode T⟩ : PatchRow)] =
        some ⟨rid, sha, codec.encode T⟩ := by
      rw [List.find?_cons]
      obtain ⟨r, hr, hr1, hr2⟩ := hrepo
      have hany : (st.repos.any fun q => q.repo_id == (rid : Int) &&
          q.name == nm) = true :=
        List.any_eq_true.mpr ⟨r, hr, by simp [hr1, hr2]⟩
      simp [hany]
    rw [hsingle]
  · rw [List.find?_eq_none]
    intro q hq
    have hqf := (List.mem_filter.mp hq).2
    simp only [Bool.not_eq_eq_eq_not, Bool.not_true, Bool.and_eq_false_iff,
      beq_eq_false_iff_ne, ne_eq] at hqf
    simp only [Bool.and_eq_true, List.any_eq_true, beq_iff_eq, Bool.not_eq_true]
    intro hcontra
    obtain ⟨⟨r, hr, hrq, hrnm⟩, hqsha⟩ := hcontra
    have : r.repo_id = rid := hname r hr hrnm
    rcases hqf with h1 | h2
    · exact h1 (hrq ▸ this)
    · exact h2 hqsha

theorem charsTake_eq_min (n : Nat) (s : String) :
    charsTake n s = charsTake (min s.length n) s := by
  unfold charsTake
  congr 1
  simp only [String.length]
  by_cases h : s.data.length ≤ n
  · rw [List.take_of_length_le h, Nat.min_eq_left h, List.take_length]
  · rw [Nat.min_eq_right (Nat.le_of_not_le h)]

theorem charsTake_self (s : String) : charsTake s.length s = s := by
  unfold charsTake
  simp only [String.length]
  rw [List.take_length]

theorem format_iso_date_neg (ts : Int) (h : ts < 0) :
    format_iso_date ts = "1970-01-01T00:00:00Z" := by
  unfold format_iso_date
  rw [if_pos h]
  decide

theorem get_commit_neg_date (st : DBState) (nm pfx : String) (c : CommitRow)
    (hsel : selectCommitRow nm pfx st = some c) (hneg : c.author_time < 0) :
    ∃ d, get_commit nm pfx st = some d ∧ d.date = "1970-01-01T00:00:00Z" := by
  unfold get_commit
  rw [hsel]
  exact ⟨_, rfl, format_iso_date_neg c.author_time hneg⟩

theorem get_patch_some_shape (codec : Codec) (nm sha : String)
    (mb : Option Nat) (st : DBState) (p : PatchRow)
    (hfind : st.commit_patches.find? (fun q =>
      (st.repos.any fun r => r.repo_id == q.repo_id && r.name == nm) &&
        q.sha == sha) = some p) :
    get_patch codec nm sha mb st =
      some ⟨nm, sha,
        match mb with
        | some max =>
          if max < utf8Len (codec.decodeLossy p.patch_blob) then
            charsTake max (codec.decodeLossy p.patch_blob)
          else codec.decodeLossy p.patch_blob
        | none => codec.decodeLossy p.patch_blob⟩ := by
  unfold get_patch
  rw [hfind]

theorem get_patch_max_chars (codec : Codec) (nm sha : String) (n : Nat)
    (st : DBState) (full : PatchResultM)
    (h : get_patch codec nm sha none st = some full) :
    get_patch codec nm sha (some n) st =
      some ⟨nm, sha,
        charsTake (min full.patch_text.length n) full.patch_text⟩ ∧
    (charsTake (min full.patch_text.length n) full.patch_text).length ≤ n := by
  cases hfind : st.commit_patches.find? (fun q =>
      (st.repos.any fun r => r.repo_id == q.repo_id && r.name == nm) &&
        q.sha == sha) with
  | none =>
    unfold get_patch at h
    rw [hfind] at h
    exact absurd h (by simp)
  | some p =>
    have hnone := get_patch_some_shape codec nm sha none st p hfind
    rw [h] at hnone
    have hfull : full.patch_text = codec.decodeLossy p.patch_blob := by
      injection hnone with hx
      rw [hx]
    have hsome := get_patch_some_shape codec nm sha (some n) st p hfind
    constructor
    · rw [hsome]
      have hmain : (if n < utf8Len (codec.decodeLossy p.patch_blob) then
            charsTake n (codec.decodeLossy p.patch_blob)
          else codec.decodeLossy p.patch_blob) =
          charsTake (min full.patch_text.length n) full.patch_text := by
        by_cases hlt : n < utf8Len (codec.decodeLossy p.patch_blob)
        · rw [if_pos hlt, ← hfull, ← charsTake_eq_min]
        · rw [if_neg hlt]
          have h2 := Nat.le_of_not_lt hlt
          have hle : full.patch_text.length ≤ n := by
            rw [hfull]
            exact Nat.le_trans (length_le_sum_utf8 _) h2
          rw [← hfull, Nat.min_eq_left hle, charsTake_self]
      show some (PatchResultM.mk nm sha
        (if n < utf8Len (codec.decodeLossy p.patch_blob) then
          charsTake n (codec.decodeLossy p.patch_blob)
        else codec.decodeLossy p.patch_blob)) = _
      rw [hmain]
    · have h1 : (charsTake (min full.patch_text.length n)
          full.patch_text).length =
          min (min full.patch_text.length n) full.patch_text.data.length := by
        unfold charsTake
        simp only [String.length]
        exact List.length_take _ _
      rw [h1]
      have h2 : full.patch_text.length = full.patch_text.data.length := rfl
      omega

-- ── Claim theorems ─────────────────────────────────────────────────────────

/-- C1: FTS coherence invariant — from any well-formed coherent store state,
`upsert_commit` and `upsert_patch` each restore coherence (every `commits_fts`
row points at a live `commits` row with the same rowid and carries that row's
current subject, body and patch_preview), and consequently an FTS MATCH on a
token contained in the current subject, body or patch_preview of the upserted
commit returns that commit's rowid. -/
theorem C1_fts_coherence (codec : Codec) (c : CommitRec) (p : PatchRec)
    (st : DBState) (hwf : wf st) (hco : coherent st) :
    coherent (upsert_commit c st) ∧
    coherent (upsert_patch codec p st) ∧
    (∀ row ∈ (upsert_commit c st).commits, row.repo_id = c.repo_id →
      row.sha = c.sha → ∀ tok : String,
      (listHasSub tok.data row.subject.data ||
        listHasSub tok.data (row.body.getD "").data ||
        listHasSub tok.data row.patch_preview.data) = true →
      row.rowid ∈ ftsMatchRowids tok (upsert_commit c st)) ∧
    (∀ row ∈ (upsert_patch codec p st).commits, row.repo_id = p.repo_id →
      row.sha = p.sha → ∀ tok : String,
      (listHasSub tok.data row.subject.data ||
        listHasSub tok.data (row.body.getD "").data ||
        listHasSub tok.data row.patch_preview.data) = true →
      row.rowid ∈ ftsMatchRowids tok (upsert_patch codec p st)) :=
  ⟨upsert_commit_coherent c st hwf hco,
    upsert_patch_coherent codec p st hwf hco,
    upsert_commit_match c st hwf,
    upsert_patch_match codec p st hwf⟩

/-- Witness for C1 at a concrete store: the empty database is well-formed and
coherent, upserting a commit keeps coherence, and a MATCH on the token "Fix"
of the new subject returns the new commit's rowid. -/
theorem C1_fts_coherence_witness :
    wf emptyDB ∧ coherent emptyDB ∧
    coherent (upsert_commit exCommit emptyDB) ∧
    (newCommitRow exCommit emptyDB).rowid ∈
      ftsMatchRowids "Fix" (upsert_commit exCommit emptyDB) := by
  refine ⟨by decide, by decide, ?_, ?_⟩
  · exact (C1_fts_coherence codec0 exCommit exPatch emptyDB (by decide)
      (by decide)).1
  · exact (C1_fts_coherence codec0 exCommit exPatch emptyDB (by decide)
      (by decide)).2.2.1 (newCommitRow exCommit emptyDB) (by decide)
      (by decide) (by decide) "Fix" (by decide)

/-- C3: the multi-statement writes run without a transaction — each
`conn.execute` commits on its own — so when a statement of `remove_repo`
fails partway through (here: the `DELETE FROM commit_files` statement, index
1, fails by I/O error), the call returns an error yet the preceding
`DELETE FROM commit_patches` stays applied: the visible state differs from
the state before the call, refuting the atomicity claim. -/
theorem C3_partial_write_observable :
    (remove_repo_failing "r" 1 exC3State).1 = true ∧
    (remove_repo_failing "r" 1 exC3State).2 ≠ exC3State ∧
    (remove_repo_failing "r" 1 exC3State).2.commit_patches = [] ∧
    exC3State.commit_patches ≠ [] ∧
    (remove_repo_failing "r" 1 exC3State).2.commit_files =
      exC3State.commit_files := by
  exact ⟨by decide, by decide, by decide, by decide, by decide⟩

/-- C4: with `opts.repos = None` the code binds the JSON text "[]" — never
the empty string its own SQL sentinel `'' = ?3` tests for — so the repo
filter `repo_name IN (SELECT value FROM json_each('[]'))` matches nothing
and `search_semantic` returns no rows at all, instead of the unrestricted
k nearest neighbours; the same store does return the row once a repo list
naming it is passed. -/
theorem C4_repos_none_returns_empty :
    exC4State.embeddings ≠ [] ∧
    search_semantic dist0 [] ⟨none, none, none⟩ exC4State = [] ∧
    search_semantic dist0 [] ⟨none, some ["repo1"], none⟩ exC4State ≠ [] := by
  exact ⟨by decide, by decide, by decide⟩

set_option maxRecDepth 100000 in
/-- C9: `build_embed_doc` slices `&preview[..1600]` by bytes whenever the
preview exceeds 1600 bytes; on a preview whose byte offset 1600 falls inside
a two-byte character the slice panics (modelled as `none`), refuting the
claim that the function is total. -/
theorem C9_build_embed_doc_panics :
    1600 < utf8Len c9preview ∧
    charBoundary c9preview.data 1600 = false ∧
    build_embed_doc c9rec = none := by
  refine ⟨by decide, by decide, by decide⟩

/-- C10: negative timestamps are clamped to the epoch — `format_iso_date`
maps every negative input to "1970-01-01T00:00:00Z", and `get_commit`
returns that date string for a selected commit whose `author_time` is
negative. -/
theorem C10_negative_time_epoch :
    (∀ ts : Int, ts < 0 → format_iso_date ts = "1970-01-01T00:00:00Z") ∧
    ∀ (st : DBState) (nm pfx : String) (c : CommitRow),
      selectCommitRow nm pfx st = some c → c.author_time < 0 →
      ∃ d, get_commit nm pfx st = some d ∧
        d.date = "1970-01-01T00:00:00Z" :=
  ⟨format_iso_date_neg, fun st nm pfx c hsel hneg =>
    get_commit_neg_date st nm pfx c hsel hneg⟩

/-- Witness for C10 at concrete inputs: the timestamp -7 and a store holding
one commit with `author_time = -5`. -/
theorem C10_negative_time_epoch_witness :
    (-7 : Int) < 0 ∧ format_iso_date (-7) = "1970-01-01T00:00:00Z" ∧
    selectCommitRow "r" "" exNegState = some exNegRow ∧
    exNegRow.author_time < 0 ∧
    (∃ d, get_commit "r" "" exNegState = some d ∧
      d.date = "1970-01-01T00:00:00Z") := by
  refine ⟨by decide, C10_negative_time_epoch.1 (-7) (by decide), by decide,
    by decide,
    C10_negative_time_epoch.2 exNegState "r" "" exNegRow (by decide)
      (by decide)⟩

set_option maxRecDepth 1000000 in
/-- C2 counterexample: for a patch text of 251 two-byte characters (502
UTF-8 bytes), the walker stores `text[..floor_char_boundary(500)]` — the
first 250 characters (500 bytes) — not the first 500 characters of the text
(which would be all 251), refuting the claim as stated. -/
theorem C2_counterexample :
    readPreview 1 "deadbeef"
      (processWalkCommit codec0 1 none (⟨0, 0, 0⟩, emptyDB) wC2).2 ≠
      some (charsTake 500 c2text) ∧
    readPreview 1 "deadbeef"
      (processWalkCommit codec0 1 none (⟨0, 0, 0⟩, emptyDB) wC2).2 =
      some (String.mk (List.replicate 250 eAcute)) := by
  exact ⟨by decide, by decide⟩

/-- C2 (amended): for every commit indexed by the sync loop whose rendered
patch text is non-empty, the stored `commit.patch_preview` after the
`upsert_patch` equals the longest prefix of whole characters of the patch
text whose UTF-8 encoding is at most 500 bytes
(`text[..text.floor_char_boundary(500)]`) — a 500-byte cap truncated at a
character boundary, which coincides with "first 500 characters" only when
those characters are single-byte. -/
theorem C2_preview_floor500 (codec : Codec) (rid : Int)
    (filter : Option String) (s : SummaryM) (st : DBState)
    (w : WalkCommitData) (text : String)
    (hex : commit_exists rid w.sha st = false)
    (hfil : filteredOut filter w = false)
    (hpt : w.patch_text = some text) :
    readPreview rid w.sha (processWalkCommit codec rid filter (s, st) w).2 =
      some (bytePrefix 500 text) := by
  simp only [processWalkCommit]
  rw [if_neg (by simp [hex]), if_neg (by simp [hfil]), hpt]
  show readPreview rid w.sha
    (upsert_patch codec ⟨rid, w.sha, text, bytePrefix 500 text⟩
      (upsert_commit_files w.files (upsert_commit (toCommitRec rid w) st))) =
    some (bytePrefix 500 text)
  have hfind : findCommitByKey rid w.sha
      (upsert_commit_files w.files
        (upsert_commit (toCommitRec rid w) st)).commits =
      some (newCommitRow (toCommitRec rid w) st) := by
    unfold findCommitByKey
    rw [upsert_commit_files_commits]
    exact findCommitByKey_upsert_commit (toCommitRec rid w) st
  rw [readPreview_upsert_patch codec rid w.sha text (bytePrefix 500 text) _ _
    hfind]
  rw [charsTake_bytePrefix]

/-- Witness for the amended C2 at a concrete commit with patch text "ab". -/
theorem C2_preview_floor500_witness :
    commit_exists 1 wSmall.sha emptyDB = false ∧
    filteredOut none wSmall = false ∧
    wSmall.patch_text = some "ab" ∧
    readPreview 1 wSmall.sha
      (processWalkCommit codec0 1 none (⟨0, 0, 0⟩, emptyDB) wSmall).2 =
      some (bytePrefix 500 "ab") := by
  refine ⟨by decide, by decide, by decide,
    C2_preview_floor500 codec0 1 none ⟨0, 0, 0⟩ emptyDB wSmall "ab"
      (by decide) (by decide) (by decide)⟩

/-- C5: idempotence of commit upsert — from any well-formed store state,
applying `upsert_commit c` any `n ≥ 1` times leaves exactly one `commits`
row and exactly one `commits_fts` entry (by rowid) for `(c.repo_id, c.sha)`. -/
theorem C5_upsert_commit_idempotent (c : CommitRec) (st : DBState)
    (hwf : wf st) (n : Nat) (hn : 1 ≤ n) :
    commitsCountKey c.repo_id c.sha ((upsert_commit c)^[n] st) = 1 ∧
    ftsCountKey c.repo_id c.sha ((upsert_commit c)^[n] st) = 1 := by
  obtain ⟨m, rfl⟩ : ∃ m, n = m + 1 :=
    ⟨n - 1, (Nat.succ_pred_eq_of_pos hn).symm⟩
  rw [Function.iterate_succ_apply']
  exact ⟨upsert_commit_countKey c _,
    upsert_commit_ftsCountKey c _ (upsert_commit_wf_iter c st hwf m)⟩

/-- Witness for C5: three upserts of the same commit into an empty store
leave one commits row and one FTS entry for its key. -/
theorem C5_upsert_commit_idempotent_witness :
    wf emptyDB ∧ 1 ≤ 3 ∧
    commitsCountKey exCommit.repo_id exCommit.sha
      ((upsert_commit exCommit)^[3] emptyDB) = 1 ∧
    ftsCountKey exCommit.repo_id exCommit.sha
      ((upsert_commit exCommit)^[3] emptyDB) = 1 := by
  refine ⟨by decide, by decide, ?_⟩
  exact C5_upsert_commit_idempotent exCommit emptyDB (by decide) 3 (by decide)

/-- C6: patch round-trip — provided the codec contract holds on the stored
text (zstd decompression inverts compression and UTF-8-lossy decoding is the
identity on text that was valid UTF-8), storing a patch with `upsert_patch`
and reading it back with `get_patch(…, None)` returns exactly the original
text, for any store whose repo names are unambiguous for the key. -/
theorem C6_patch_roundtrip (codec : Codec) (st : DBState) (rid : Int)
    (nm sha T pv : String)
    (hrt : codec.decodeLossy (codec.encode T) = T)
    (hlen : 1 ≤ T.length)
    (hname : ∀ r ∈ st.repos, r.name = nm → r.repo_id = rid)
    (hrepo : ∃ r ∈ st.repos, r.repo_id = rid ∧ r.name = nm) :
    get_patch codec nm sha none (upsert_patch codec ⟨rid, sha, T, pv⟩ st) =
      some ⟨nm, sha, T⟩ := by
  rw [get_patch_after_upsert codec st rid nm sha T pv hname hrepo, hrt]

/-- Witness for C6 at a concrete store and the text "x" with a codec whose
decode inverts its encode there. -/
theorem C6_patch_roundtrip_witness :
    codecX.decodeLossy (codecX.encode "x") = "x" ∧
    (1 ≤ ("x" : String).length) ∧
    (∀ r ∈ exRepoState.repos, r.name = "r" → r.repo_id = 1) ∧
    (∃ r ∈ exRepoState.repos, r.repo_id = 1 ∧ r.name = "r") ∧
    get_patch codecX "r" "s" none
      (upsert_patch codecX ⟨1, "s", "x", "x"⟩ exRepoState) =
      some ⟨"r", "s", "x"⟩ := by
  refine ⟨rfl, by decide, by decide, by decide,
    C6_patch_roundtrip codecX exRepoState 1 "r" "s" "x" "x" rfl (by decide)
      (by decide) (by decide)⟩

/-- C7: `get_patch` truncation — whenever `get_patch(…, None)` returns the
full decoded text, `get_patch(…, Some n)` returns exactly the first
`min(charCount, n)` characters of it (`max_bytes` acts as a character count,
the result never exceeds `n` characters, and the cut sits on a character
boundary); the `None` case is the untruncated text by construction. -/
theorem C7_get_patch_truncation (codec : Codec) (nm sha : String) (n : Nat)
    (st : DBState) (full : PatchResultM)
    (h : get_patch codec nm sha none st = some full) :
    get_patch codec nm sha (some n) st =
      some ⟨nm, sha,
        charsTake (min full.patch_text.length n) full.patch_text⟩ ∧
    (charsTake (min full.patch_text.length n) full.patch_text).length ≤ n :=
  get_patch_max_chars codec nm sha n st full h

/-- Witness for C7 at a concrete stored patch decoding to "x" with n = 1. -/
theorem C7_get_patch_truncation_witness :
    get_patch codecX "r" "s" none exPatchState = some ⟨"r", "s", "x"⟩ ∧
    get_patch codecX "r" "s" (some 1) exPatchState =
      some ⟨"r", "s", charsTake (min ("x" : String).length 1) "x"⟩ ∧
    (charsTake (min ("x" : String).length 1) "x").length ≤ 1 := by
  refine ⟨by decide, ?_⟩
  exact C7_get_patch_truncation codecX "r" "s" 1 exPatchState ⟨"r", "s", "x"⟩
    (by decide)

/-- C8 counterexample: with `author_filter = "alice@example.com"` and a walk
of two commits (one by alice, one by bob), the second sync over the unchanged
walk yields `commits_already_indexed = 1`, not the walk total 2: the
existence check precedes the author filter, so commits filtered on the first
run are re-filtered — not counted as already indexed — on the second. -/
theorem C8_counterexample :
    (sync_walk codec0 1 (some "alice@example.com") [wAlice, wBob]
      (sync_walk codec0 1 (some "alice@example.com") [wAlice, wBob]
        emptyDB).2).1.commits_indexed = 0 ∧
    (sync_walk codec0 1 (some "alice@example.com") [wAlice, wBob]
      (sync_walk codec0 1 (some "alice@example.com") [wAlice, wBob]
        emptyDB).2).1.commits_already_indexed = 1 ∧
    (sync_walk codec0 1 (some "alice@example.com") [wAlice, wBob]
      (sync_walk codec0 1 (some "alice@example.com") [wAlice, wBob]
        emptyDB).2).1.commits_filtered = 1 ∧
    ([wAlice, wBob] : List WalkCommitData).length = 2 := by
  exact ⟨by decide, by decide, by decide, by decide⟩

/-- C8 (amended): a second sync over an unchanged walk yields
`commits_indexed = 0` and
`commits_already_indexed + commits_filtered = total`; when no author filter
is configured, `commits_already_indexed = total`.  (With an author filter,
the filtered commits are counted in `commits_filtered` again, not in
`commits_already_indexed`.) -/
theorem C8_incremental_skip (codec : Codec) (rid : Int)
    (filter : Option String) (walked : List WalkCommitData) (st : DBState) :
    (sync_walk codec rid filter walked
      (sync_walk codec rid filter walked st).2).1.commits_indexed = 0 ∧
    (sync_walk codec rid filter walked
        (sync_walk codec rid filter walked st).2).1.commits_already_indexed +
      (sync_walk codec rid filter walked
        (sync_walk codec rid filter walked st).2).1.commits_filtered =
      walked.length ∧
    (filter = none →
      (sync_walk codec rid filter walked
          (sync_walk codec rid filter walked st).2).1.commits_already_indexed =
        walked.length) := by
  have hall : ∀ w ∈ walked,
      commit_exists rid w.sha (sync_walk codec rid filter walked st).2 = true ∨
      filteredOut filter w = true := by
    intro w hw
    exact sync_exists_or_filtered codec rid filter walked (⟨0, 0, 0⟩, st) w hw
  obtain ⟨h1, h2, h3, h4⟩ := sync_fold_stable codec rid filter walked
    ⟨0, 0, 0⟩ (sync_walk codec rid filter walked st).2 hall
  refine ⟨h2, by simpa using h3, ?_⟩
  intro hfn
  have h6 : (sync_walk codec rid filter walked
      (sync_walk codec rid filter walked st).2).1.commits_filtered = 0 :=
    h4 hfn
  have h7 : (sync_walk codec rid filter walked
        (sync_walk codec rid filter walked st).2).1.commits_already_indexed +
      (sync_walk codec rid filter walked
        (sync_walk codec rid filter walked st).2).1.commits_filtered =
      walked.length := by
    simpa using h3
  omega

/-- Witness for the amended C8 at a concrete two-commit walk without an
author filter: the second sync counts both commits as already indexed. -/
theorem C8_incremental_skip_witness :
    (sync_walk codec0 1 none [wAlice, wBob]
      (sync_walk codec0 1 none [wAlice, wBob] emptyDB).2).1.commits_indexed =
      0 ∧
    (sync_walk codec0 1 none [wAlice, wBob]
        (sync_walk codec0 1 none [wAlice, wBob]
          emptyDB).2).1.commits_already_indexed =
      ([wAlice, wBob] : List WalkCommitData).length := by
  refine ⟨(C8_incremental_skip codec0 1 none [wAlice, wBob] emptyDB).1, ?_⟩
  exact (C8_incremental_skip codec0 1 none [wAlice, wBob] emptyDB).2.2 rfl
